import Mathlib

/-!
Shallow embedding of the LPSolver repository (files lpsolver/solver.py and
lpsolver/model.py) and proofs about it.

Conventions of the embedding:
* numpy floating-point numbers are idealised as exact rationals (ℚ); the
  literal 1e-10 becomes the rational 1/10^10;
* a numpy matrix is a total function out of ℕ (entries outside the array
  are 0); the shape information that a numpy array carries implicitly is
  passed as explicit ℕ arguments;
* Python None / exceptions become Option / Except;
* the mutable solver instance (self.tableau, self.basis, ...) becomes an
  explicit state value threaded through `LPSolver.solve`.
-/

attribute [local semireducible] Rat.add Rat.mul Rat.sub Rat.inv

/-- The numerical tolerance 1e-10 that solver.py hard-codes in its sign
tests (entering test, leaving test, np.isclose atol). -/
def eps : ℚ := 1 / 10000000000

/-- A simplex tableau: entry (i, j) of the (m+1) x (n+1) numpy array
self.tableau, totalised to a function on all of ℕ x ℕ. -/
abbrev Tableau : Type := ℕ → ℕ → ℚ

/-- State of one LPSolver instance (solver.py, class LPSolver): the fields
set in __init__ and mutated by solve. None-initialised fields whose value
is an array/number are modelled with Option where the code reads them back,
and with a junk default where it never does (the tableau). -/
structure LPSolver where
  tableau : Tableau
  num_variables : ℕ
  num_constraints : ℕ
  basis : List ℕ
  objective_value : Option ℚ
  solution : Option (List ℚ)

namespace LPSolver

/-- LPSolver.__init__: fresh instance. self.tableau = None is modelled by
the all-zero function (solve overwrites it before any read). -/
def init : LPSolver :=
  { tableau := fun _ _ => 0
    num_variables := 0
    num_constraints := 0
    basis := []
    objective_value := none
    solution := none }

/-- LPSolver.standard_form: append one slack column per constraint.
Returns (c_new, A_new, b) where c_new = [c | 0^m] and A_new = [A | I_m],
as total functions; n is read off as the length of A's first row and m as
the number of rows, matching A.shape for a rectangular numpy array. -/
def standard_form (c : List ℚ) (A : List (List ℚ)) (b : List ℚ) :
    (ℕ → ℚ) × (ℕ → ℕ → ℚ) × List ℚ :=
  let n := (A.headD []).length
  (fun j => if j < n then c.getD j 0 else 0,
   fun i j => if j < n then (A.getD i []).getD j 0 else if j = n + i then 1 else 0,
   b)

/-- LPSolver.create_initial_tableau: the (m+1) x (nv+1) array
[[-c^T, 0], [A, b]] (nv = number of variables after slacks are added),
totalised with 0 outside the array. -/
def create_initial_tableau (cf : ℕ → ℚ) (Af : ℕ → ℕ → ℚ) (b : List ℚ)
    (m nv : ℕ) : Tableau :=
  fun i k =>
    if i = 0 then (if k < nv then -(cf k) else 0)
    else if i ≤ m then (if k < nv then Af (i - 1) k else if k = nv then b.getD (i - 1) 0 else 0)
    else 0

/-- LPSolver.initialize_basis: the slack indices
[num_variables - num_constraints, ..., num_variables - 1]. -/
def initialize_basis (numVars numCons : ℕ) : List ℕ :=
  (List.range numCons).map (fun i => numVars - numCons + i)

/-- LPSolver.get_entering_variable: if every objective-row entry over the
nv non-RHS columns is >= -1e-10, return None; otherwise return the first
column j with entry < -1e-10 that np.isclose(entry, 0, atol=1e-10) does
not flag (Bland's rule as the code writes it). -/
def get_entering_variable (T : Tableau) (numVars : ℕ) : Option ℕ :=
  if (List.range numVars).all (fun j => decide (-eps ≤ T 0 j)) then none
  else (List.range numVars).findSome?
    (fun j => if T 0 j < -eps ∧ ¬ |T 0 j| ≤ eps then some j else none)

/-- One entry of the `ratios` list built by LPSolver.get_leaving_variable:
(b[i] / column[i], i) when column[i] > 1e-10, and (float('inf'), i)
otherwise; float('inf') is modelled as `none`. -/
def ratio_entry (T : Tableau) (numVars j i : ℕ) : Option ℚ × ℕ :=
  (if eps < T (i + 1) j then some (T (i + 1) numVars / T (i + 1) j) else none, i)

/-- The generator filter `r[0] >= 0` of get_leaving_variable; on the
infinity marker `none` the Python comparison inf >= 0 is True. -/
def ratio_nonneg : Option ℚ → Bool
  | none => true
  | some q => decide (0 ≤ q)

/-- The Python `<` on ratio keys used by min(..., key=lambda x: x[0]),
with none standing for float('inf'). -/
def ratio_lt : Option ℚ → Option ℚ → Bool
  | some a, some b => decide (a < b)
  | some _, none => true
  | none, _ => false

/-- The `ratios` list of get_leaving_variable after the generator filter
`r[0] >= 0` is applied to it. -/
def ratio_list (T : Tableau) (numVars j m : ℕ) : List (Option ℚ × ℕ) :=
  ((List.range m).map (ratio_entry T numVars j)).filter (fun p => ratio_nonneg p.1)

/-- Python's min over a list of (key, index) pairs compared by key: None on
the empty list (a ValueError), otherwise the first pair with minimal key. -/
def py_min (l : List (Option ℚ × ℕ)) : Option (Option ℚ × ℕ) :=
  match l with
  | [] => none
  | x :: xs => some (xs.foldl (fun best y => if ratio_lt y.1 best.1 then y else best) x)

/-- LPSolver.get_leaving_variable on the current tableau, for entering
column j. Outer `none` models the uncaught ValueError that Python's min
raises on an empty sequence; `some none` is the function returning None
(unbounded); `some (some r)` is the returned 0-based constraint row. -/
def get_leaving_variable (T : Tableau) (numVars m j : ℕ) : Option (Option ℕ) :=
  if (List.range m).all (fun i => decide (T (i + 1) j ≤ eps)) then some none
  else
    match py_min (ratio_list T numVars j m) with
    | none => none
    | some q => some (some q.2)

/-- LPSolver.pivot, tableau part: divide row r+1 by its entry in column j,
then subtract from every other row i its column-j entry times the
normalised pivot row (row i's column-j entry is read before row i is
replaced, as in the numpy code). The basis update
self.basis[leaving_idx] = entering_idx is `basis.set r j` at the call
site. -/
def pivot (T : Tableau) (j r : ℕ) : Tableau :=
  fun i k =>
    if i = r + 1 then T i k / T (r + 1) j
    else T i k - T i j * (T (r + 1) k / T (r + 1) j)

/-- LPSolver.extract_solution: a zero vector of length num_variables gets
solution[var] = T[i+1, RHS] for each basic original variable, then is cut
to the first n = num_variables - num_constraints entries; the objective
value is -T[0, RHS]. -/
def extract_solution (T : Tableau) (basis : List ℕ) (numVars numCons : ℕ) :
    List ℚ × ℚ :=
  let n := numVars - numCons
  let vals := basis.enum.foldl
    (fun acc p => if p.2 < n then Function.update acc p.2 (T (p.1 + 1) numVars) else acc)
    (fun _ => (0 : ℚ))
  ((List.range n).map vals, -(T 0 numVars))

/-- The result dictionary of LPSolver.solve: status plus the keys present
for that status (optimal carries solution / objective_value / iterations,
the other two only iterations). -/
inductive SolveResult where
  | optimal (solution : List ℚ) (objectiveValue : ℚ) (iterations : ℕ)
  | unbounded (iterations : ℕ)
  | iterationLimit (iterations : ℕ)
deriving DecidableEq

/-- Every terminal result reports its iteration count. -/
def SolveResult.iterations : SolveResult → ℕ
  | .optimal _ _ k => k
  | .unbounded k => k
  | .iterationLimit k => k

/-- The while-loop of LPSolver.solve. fuel = maxIterations - iteration
counts the remaining loop tests, so the guard iteration < max_iterations
is fuel > 0. Returns the tableau and basis as the instance holds them when
the loop ends, plus the result (`none` when get_leaving_variable's min
raised). On hitting the limit the code reports iterations =
max_iterations. -/
def simplex_loop (numVars m maxIter : ℕ) :
    ℕ → ℕ → Tableau → List ℕ → Tableau × List ℕ × Option SolveResult
  | 0, _, T, basis => (T, basis, some (.iterationLimit maxIter))
  | fuel + 1, iteration, T, basis =>
    match get_entering_variable T numVars with
    | none =>
      let e := extract_solution T basis numVars m
      (T, basis, some (.optimal e.1 e.2 iteration))
    | some j =>
      match get_leaving_variable T numVars m j with
      | none => (T, basis, none)
      | some none => (T, basis, some (.unbounded iteration))
      | some (some r) =>
        simplex_loop numVars m maxIter fuel (iteration + 1) (pivot T j r) (basis.set r j)

/-- LPSolver.solve on instance s: set num_constraints and num_variables,
build the standard form, the initial tableau and basis, run the loop, and
return the mutated instance together with the result. solution and
objective_value are only written on the optimal path. -/
def solve (s : LPSolver) (c : List ℚ) (A : List (List ℚ)) (b : List ℚ)
    (maxIterations : ℕ := 1000) : LPSolver × Option SolveResult :=
  let m := A.length
  let std := standard_form c A b
  let n := (A.headD []).length
  let nv := n + m
  let T0 := create_initial_tableau std.1 std.2.1 std.2.2 m nv
  let basis0 := initialize_basis nv m
  let out := simplex_loop nv m maxIterations maxIterations 0 T0 basis0
  ({ tableau := out.1
     num_variables := nv
     num_constraints := m
     basis := out.2.1
     objective_value := match out.2.2 with | some (.optimal _ v _) => some v | _ => s.objective_value
     solution := match out.2.2 with | some (.optimal sol _ _) => some sol | _ => s.solution },
   out.2.2)

/-- A fresh-instance call, as `LPSolver().solve(c, A, b, ...)` in the
examples: only the returned result dictionary. -/
def solve_result (c : List ℚ) (A : List (List ℚ)) (b : List ℚ)
    (maxIterations : ℕ := 1000) : Option SolveResult :=
  (solve init c A b maxIterations).2

/-- The objective value c.x of the basic solution a tableau/basis pair
denotes: basic variable basis[i] has value T[i+1, RHS], all other
variables are 0. -/
def basic_objective (cf : ℕ → ℚ) (T : Tableau) (basis : List ℕ) (numVars : ℕ) : ℚ :=
  (basis.enum.map (fun p => cf p.2 * T (p.1 + 1) numVars)).sum

end LPSolver

/-- An LPExpression (variables.py): a finite map from variable to
coefficient plus a constant. The dict keyed by LPVariable objects is
modelled as an association list keyed by the variable's model index
(model.py assigns var.index = position in self.variables, and
to_standard_form only ever reads var.index of a key); dict keys are
distinct, so no list entry repeats an index in well-formed inputs. -/
structure LPExpression where
  terms : List (ℕ × ℚ)
  constant : ℚ

/-- An LPConstraint (variables.py): lhs sense rhs, the sense kept as the
raw string exactly as the Python object stores it. -/
structure LPConstraint where
  lhs : LPExpression
  sense : String
  rhs : ℚ

/-- The part of an LPModel (model.py) that to_standard_form reads:
len(self.variables), self.constraints, self.objective, self.sense. -/
structure LPModel where
  num_vars : ℕ
  constraints : List LPConstraint
  objective : Option LPExpression
  sense : String

namespace LPModel

/-- Filling one row of the zero array from an expression's terms:
A[i, var.index] = coef for each (var, coef) in the dict, in order. -/
def row_of_terms (terms : List (ℕ × ℚ)) : ℕ → ℚ :=
  terms.foldl (fun acc t => Function.update acc t.1 t.2) (fun _ => 0)

/-- The objective vector c built by LPModel.to_standard_form:
c[var.index] = coef for a maximize model and -coef otherwise, 0 where the
objective has no term (or there is no objective at all). -/
def objective_c (mdl : LPModel) : ℕ → ℚ :=
  match mdl.objective with
  | none => fun _ => 0
  | some e => e.terms.foldl
      (fun acc t => Function.update acc t.1 (if mdl.sense = "maximize" then t.2 else -t.2))
      (fun _ => 0)

/-- The per-constraint body of the loop in LPModel.to_standard_form: fill
the row from lhs.terms, then branch on the sense string in the order the
code tests them; an unrecognised sense raises ValueError. -/
def constraint_row (con : LPConstraint) : Except String ((ℕ → ℚ) × ℚ) :=
  if con.sense = "<=" then
    .ok (row_of_terms con.lhs.terms, con.rhs - con.lhs.constant)
  else if con.sense = ">=" then
    .ok (fun v => -(row_of_terms con.lhs.terms v), -(con.rhs - con.lhs.constant))
  else if con.sense = "=" then
    .ok (row_of_terms con.lhs.terms, con.rhs - con.lhs.constant)
  else
    .error ("Unsupported constraint sense: " ++ con.sense)

/-- LPModel.to_standard_form: (c, A, b), failing with the ValueError of
the first constraint whose sense is not one of the three recognised
symbols. A and b are total functions of the row index. -/
def to_standard_form (mdl : LPModel) :
    Except String ((ℕ → ℚ) × (ℕ → ℕ → ℚ) × (ℕ → ℚ)) :=
  match mdl.constraints.mapM constraint_row with
  | .error e => .error e
  | .ok rows =>
    .ok (objective_c mdl,
         fun i => (rows.getD i (fun _ => 0, 0)).1,
         fun i => (rows.getD i (fun _ => 0, 0)).2)

end LPModel

/-- A small concrete tableau, the initial tableau of maximize x s.t.
x ≤ 5 (one structural variable, one slack): [[-1, 0, 0], [1, 1, 5]]. -/
def T_w : Tableau := fun i j => (([[-1, 0, 0], [1, 1, 5]].getD i []).getD j 0 : ℚ)

/-- A concrete tableau with a negative-ratio candidate row: column 0 holds
the entering column, column 1 the RHS. Row 1 has entry 1 and RHS -1 (ratio
-1), row 2 has entry 1 and RHS 5 (ratio 5). -/
def T_neg : Tableau := fun i j => (([[0, 0], [1, -1], [1, 5]].getD i []).getD j 0 : ℚ)

/-- Objective of the concrete problem maximize x s.t. x ≤ -1 and -x ≤ 3
(an infeasible-at-the-origin instance the solver accepts as input). -/
def c_c6 : List ℚ := [1]

/-- Constraint matrix of the problem behind c_c6. -/
def A_c6 : List (List ℚ) := [[1], [-1]]

/-- Right-hand side of the problem behind c_c6. -/
def b_c6 : List ℚ := [-1, 3]

/-- The initial tableau solve builds for (c_c6, A_c6, b_c6): m = 2
constraints, nv = 3 variables after slacks. -/
def T0_c6 : Tableau :=
  LPSolver.create_initial_tableau (LPSolver.standard_form c_c6 A_c6 b_c6).1
    (LPSolver.standard_form c_c6 A_c6 b_c6).2.1 (LPSolver.standard_form c_c6 A_c6 b_c6).2.2 2 3

/-- A one-variable model whose single constraint is 2*x0 >= 3. -/
def mdl_w : LPModel :=
  { num_vars := 1
    constraints := [{ lhs := { terms := [(0, 2)], constant := 0 }, sense := ">=", rhs := 3 }]
    objective := none
    sense := "maximize" }

/-- The (c, A, b) triple mdl_w's standard-form step produces. -/
def out_w : (ℕ → ℚ) × (ℕ → ℕ → ℚ) × (ℕ → ℚ) :=
  match LPModel.to_standard_form mdl_w with
  | .ok o => o
  | .error _ => (fun _ => 0, fun _ _ => 0, fun _ => 0)

section FindHelpers

variable {P : ℕ → Prop} [DecidablePred P]

lemma all_range_decide {n : ℕ} :
    ((List.range n).all fun i => decide (P i)) = true ↔ ∀ i < n, P i := by
  rw [List.all_eq_true]
  constructor
  · exact fun h i hi => of_decide_eq_true (h i (List.mem_range.mpr hi))
  · exact fun h i hi => decide_eq_true (h i (List.mem_range.mp hi))

lemma findSome?_range'_eq_some {s n j : ℕ} :
    ((List.range' s n).findSome? fun k => if P k then some k else none) = some j ↔
      s ≤ j ∧ j < s + n ∧ P j ∧ ∀ k, s ≤ k → k < j → ¬ P k := by
  induction n generalizing s with
  | zero =>
    show (List.findSome? _ []) = some j ↔ _
    simp only [List.findSome?_nil]
    constructor
    · intro h; cases h
    · rintro ⟨h1, h2, -, -⟩; omega
  | succ n ih =>
    rw [List.range'_succ, List.findSome?_cons]
    by_cases hs : P s
    · simp only [if_pos hs]
      constructor
      · rintro ⟨rfl⟩
        exact ⟨le_rfl, by omega, hs, fun k hk hk' => absurd hk' (by omega)⟩
      · rintro ⟨h1, -, hj, hmin⟩
        rcases Nat.eq_or_lt_of_le h1 with rfl | hlt
        · rfl
        · exact absurd hs (hmin s le_rfl hlt)
    · simp only [if_neg hs]
      rw [ih]
      constructor
      · rintro ⟨h1, h2, hj, hmin⟩
        exact ⟨by omega, by omega, hj, fun k hk hk' => by
          rcases Nat.eq_or_lt_of_le hk with rfl | h
          · exact hs
          · exact hmin k h hk'⟩
      · rintro ⟨h1, h2, hj, hmin⟩
        have hne : j ≠ s := fun h => hs (h ▸ hj)
        exact ⟨by omega, by omega, hj, fun k hk hk' => hmin k (by omega) hk'⟩

lemma findSome?_range_eq_some {n j : ℕ} :
    ((List.range n).findSome? fun k => if P k then some k else none) = some j ↔
      j < n ∧ P j ∧ ∀ k < j, ¬ P k := by
  rw [List.range_eq_range', findSome?_range'_eq_some]
  constructor
  · rintro ⟨-, h2, hj, hmin⟩
    exact ⟨by omega, hj, fun k hk => hmin k (Nat.zero_le k) hk⟩
  · rintro ⟨h1, hj, hmin⟩
    exact ⟨Nat.zero_le j, by omega, hj, fun k _ hk => hmin k hk⟩

lemma findSome?_range_eq_none {n : ℕ} :
    ((List.range n).findSome? fun k => if P k then some k else none) = none ↔
      ∀ k < n, ¬ P k := by
  rw [List.findSome?_eq_none_iff]
  constructor
  · intro h k hk hP
    have := h k (List.mem_range.mpr hk)
    rw [if_pos hP] at this
    cases this
  · intro h k hk
    rw [if_neg (h k (List.mem_range.mp hk))]

end FindHelpers

namespace LPSolver

lemma entering_cond_iff {x : ℚ} : (x < -eps ∧ ¬ |x| ≤ eps) ↔ x < -eps := by
  constructor
  · exact fun h => h.1
  · intro h
    refine ⟨h, fun habs => ?_⟩
    have := neg_le_abs x
    linarith

/-- The entering rule, characterised: some j exactly for the first
(lowest-index) objective-row entry strictly below -eps. -/
lemma get_entering_variable_eq_some {T : Tableau} {numVars j : ℕ} :
    get_entering_variable T numVars = some j ↔
      j < numVars ∧ T 0 j < -eps ∧ ∀ k < j, ¬ T 0 k < -eps := by
  unfold get_entering_variable
  split
  · rename_i hall
    rw [all_range_decide] at hall
    constructor
    · intro h; cases h
    · rintro ⟨h1, h2, -⟩
      exact absurd h2 (not_lt.mpr (by linarith [hall j h1]))
  · rw [findSome?_range_eq_some]
    simp only [entering_cond_iff]

/-- The entering rule, characterised: None exactly when every objective-row
entry over the nv non-RHS columns is at least -eps. -/
lemma get_entering_variable_eq_none {T : Tableau} {numVars : ℕ} :
    get_entering_variable T numVars = none ↔ ∀ k < numVars, -eps ≤ T 0 k := by
  unfold get_entering_variable
  split
  · rename_i hall
    rw [all_range_decide] at hall
    simp only [true_iff]
    exact hall
  · rename_i hall
    rw [all_range_decide] at hall
    push_neg at hall
    obtain ⟨k, hk, hklt⟩ := hall
    rw [findSome?_range_eq_none]
    constructor
    · intro h
      exact absurd (by rw [entering_cond_iff]; linarith : T 0 k < -eps ∧ ¬ |T 0 k| ≤ eps)
        (h k hk)
    · intro h
      exact absurd (h k hk) (not_le.mpr (by linarith))

lemma ratio_lt_irrefl (a : Option ℚ) : ratio_lt a a = false := by
  cases a <;> simp [ratio_lt]

lemma ratio_lt_trans {a b c : Option ℚ} (h1 : ratio_lt a b = true)
    (h2 : ratio_lt b c = true) : ratio_lt a c = true := by
  cases a with
  | none => simp [ratio_lt] at h1
  | some x =>
    cases c with
    | none => simp [ratio_lt]
    | some z =>
      cases b with
      | none => simp [ratio_lt] at h2
      | some y =>
        simp only [ratio_lt, decide_eq_true_eq] at h1 h2 ⊢
        linarith

lemma ratio_lt_of_lt_of_not_lt {a b c : Option ℚ} (h1 : ratio_lt a b = true)
    (h2 : ratio_lt c b = false) : ratio_lt a c = true := by
  cases a with
  | none => simp [ratio_lt] at h1
  | some x =>
    cases c with
    | none => simp [ratio_lt]
    | some z =>
      cases b with
      | none => simp [ratio_lt] at h2
      | some y =>
        simp only [ratio_lt, decide_eq_true_eq, decide_eq_false_iff_not, not_lt] at h1 h2 ⊢
        linarith

lemma mem_ratio_list {T : Tableau} {numVars j m : ℕ} {p : Option ℚ × ℕ} :
    p ∈ ratio_list T numVars j m ↔
      p.2 < m ∧ p = ratio_entry T numVars j p.2 ∧ ratio_nonneg p.1 = true := by
  unfold ratio_list
  rw [List.mem_filter, List.mem_map]
  constructor
  · rintro ⟨⟨i, hi, rfl⟩, hnn⟩
    exact ⟨List.mem_range.mp hi, rfl, hnn⟩
  · rintro ⟨h1, h2, h3⟩
    exact ⟨⟨p.2, List.mem_range.mpr h1, h2.symm⟩, h3⟩

lemma ratio_list_succ (T : Tableau) (numVars j m : ℕ) :
    ratio_list T numVars j (m + 1) =
      ratio_list T numVars j m ++
        (if ratio_nonneg (ratio_entry T numVars j m).1 = true
          then [ratio_entry T numVars j m] else []) := by
  unfold ratio_list
  rw [List.range_succ, List.map_append, List.filter_append]
  congr 1
  rcases h : ratio_nonneg (ratio_entry T numVars j m).1 with _ | _ <;>
    simp [List.filter_cons, h]

lemma py_min_eq_none {l : List (Option ℚ × ℕ)} : py_min l = none ↔ l = [] := by
  cases l <;> simp [py_min]

lemma py_min_append_singleton (l : List (Option ℚ × ℕ)) (a : Option ℚ × ℕ) :
    py_min (l ++ [a]) =
      match py_min l with
      | none => some a
      | some q => some (if ratio_lt a.1 q.1 = true then a else q) := by
  cases l with
  | nil => simp [py_min]
  | cons x xs =>
    simp only [py_min, List.cons_append, List.foldl_append, List.foldl_cons, List.foldl_nil]

/-- What Python's min returns on the filtered ratios list: an element of
the list, with minimal key, and strictly below every later-indexed element
of equal key (first occurrence wins). -/
lemma py_min_ratio_list_spec {T : Tableau} {numVars j m : ℕ} {q : Option ℚ × ℕ}
    (h : py_min (ratio_list T numVars j m) = some q) :
    q ∈ ratio_list T numVars j m ∧
      (∀ p ∈ ratio_list T numVars j m, ratio_lt p.1 q.1 = false) ∧
      (∀ p ∈ ratio_list T numVars j m, p.2 < q.2 → ratio_lt q.1 p.1 = true) := by
  induction m generalizing q with
  | zero =>
    simp [ratio_list, py_min] at h
  | succ m ih =>
    rw [ratio_list_succ] at h ⊢
    by_cases hnn : ratio_nonneg (ratio_entry T numVars j m).1 = true
    · rw [if_pos hnn] at h ⊢
      rw [py_min_append_singleton] at h
      rcases hpm : py_min (ratio_list T numVars j m) with _ | qm
      · have hnil := py_min_eq_none.mp hpm
        rw [hpm] at h
        simp only [Option.some.injEq] at h
        subst h
        rw [hnil]
        refine ⟨List.mem_singleton.mpr rfl, ?_, ?_⟩
        · intro p hp
          rcases List.mem_singleton.mp hp with rfl
          exact ratio_lt_irrefl _
        · intro p hp hlt
          rcases List.mem_singleton.mp hp with rfl
          exact absurd hlt (lt_irrefl _)
      · rw [hpm] at h
        obtain ⟨hqmem, hqmin, hqfirst⟩ := ih hpm
        simp only [Option.some.injEq] at h
        by_cases hlt : ratio_lt (ratio_entry T numVars j m).1 qm.1 = true
        · rw [if_pos hlt] at h
          subst h
          refine ⟨List.mem_append_right _ (List.mem_singleton.mpr rfl), ?_, ?_⟩
          · intro p hp
            rcases List.mem_append.mp hp with hp | hp
            · by_contra hplt
              rw [Bool.not_eq_false] at hplt
              have := ratio_lt_trans hplt hlt
              rw [hqmin p hp] at this
              cases this
            · rcases List.mem_singleton.mp hp with rfl
              exact ratio_lt_irrefl _
          · intro p hp hplt2
            rcases List.mem_append.mp hp with hp | hp
            · exact ratio_lt_of_lt_of_not_lt hlt (hqmin p hp)
            · rcases List.mem_singleton.mp hp with rfl
              exact absurd hplt2 (lt_irrefl _)
        · rw [if_neg hlt] at h
          subst h
          refine ⟨List.mem_append_left _ hqmem, ?_, ?_⟩
          · intro p hp
            rcases List.mem_append.mp hp with hp | hp
            · exact hqmin p hp
            · rcases List.mem_singleton.mp hp with rfl
              exact (Bool.not_eq_true _).mp hlt
          · intro p hp hp2
            rcases List.mem_append.mp hp with hp | hp
            · exact hqfirst p hp hp2
            · rcases List.mem_singleton.mp hp with rfl
              have hq2 := (mem_ratio_list.mp hqmem).1
              have : (ratio_entry T numVars j m).2 = m := rfl
              omega
    · rw [if_neg hnn] at h ⊢
      rw [List.append_nil] at h ⊢
      exact ih h

/-- The leaving rule returns None exactly when no constraint row has a
strictly positive (above eps) entry in the entering column. -/
lemma get_leaving_variable_eq_some_none {T : Tableau} {numVars m j : ℕ} :
    get_leaving_variable T numVars m j = some none ↔ ∀ i < m, T (i + 1) j ≤ eps := by
  unfold get_leaving_variable
  by_cases hall : ((List.range m).all fun i => decide (T (i + 1) j ≤ eps)) = true
  · rw [if_pos hall]
    rw [all_range_decide] at hall
    exact ⟨fun _ => hall, fun _ => rfl⟩
  · rw [if_neg hall]
    rw [all_range_decide] at hall
    constructor
    · intro h
      rcases hpm : py_min (ratio_list T numVars j m) with _ | q <;>
        rw [hpm] at h <;> simp at h
    · intro h
      exact absurd h hall

/-- When the leaving rule returns a row r, that row is one of the m
constraint rows, its ratio entry passed the nonnegativity filter, its key
is minimal among all surviving entries, and it strictly beats every
earlier surviving row (so equal keys are resolved to the smallest row
index). -/
lemma get_leaving_variable_eq_some_some {T : Tableau} {numVars m j r : ℕ}
    (h : get_leaving_variable T numVars m j = some (some r)) :
    r < m ∧ ratio_nonneg (ratio_entry T numVars j r).1 = true ∧
      (∀ i < m, ratio_nonneg (ratio_entry T numVars j i).1 = true →
        ratio_lt (ratio_entry T numVars j i).1 (ratio_entry T numVars j r).1 = false) ∧
      (∀ i < r, ratio_nonneg (ratio_entry T numVars j i).1 = true →
        ratio_lt (ratio_entry T numVars j r).1 (ratio_entry T numVars j i).1 = true) := by
  unfold get_leaving_variable at h
  by_cases hall : ((List.range m).all fun i => decide (T (i + 1) j ≤ eps)) = true
  · rw [if_pos hall] at h
    simp at h
  · rw [if_neg hall] at h
    rcases hpm : py_min (ratio_list T numVars j m) with _ | q
    · rw [hpm] at h
      cases h
    · rw [hpm] at h
      simp only [Option.some.injEq] at h
      obtain ⟨hqmem, hqmin, hqfirst⟩ := py_min_ratio_list_spec hpm
      obtain ⟨hq2, hqeq, hqnn⟩ := mem_ratio_list.mp hqmem
      subst h
      refine ⟨hq2, by rw [← hqeq]; exact hqnn, ?_, ?_⟩
      · intro i hi hinn
        have hmem : ratio_entry T numVars j i ∈ ratio_list T numVars j m :=
          mem_ratio_list.mpr ⟨hi, rfl, hinn⟩
        have := hqmin _ hmem
        rw [← hqeq]
        exact this
      · intro i hi hinn
        have hmem : ratio_entry T numVars j i ∈ ratio_list T numVars j m :=
          mem_ratio_list.mpr ⟨by exact lt_trans hi hq2, rfl, hinn⟩
        have := hqfirst _ hmem hi
        rw [← hqeq]
        exact this

/-- The leaving rule raises (Python ValueError from min on an empty
sequence) exactly when some row passes the column test but every row's
ratio entry fails the nonnegativity filter. -/
lemma get_leaving_variable_eq_none_iff {T : Tableau} {numVars m j : ℕ} :
    get_leaving_variable T numVars m j = none ↔
      (¬ ∀ i < m, T (i + 1) j ≤ eps) ∧
        ∀ i < m, ratio_nonneg (ratio_entry T numVars j i).1 = false := by
  unfold get_leaving_variable
  by_cases hall : ((List.range m).all fun i => decide (T (i + 1) j ≤ eps)) = true
  · rw [if_pos hall]
    rw [all_range_decide] at hall
    constructor
    · intro h; cases h
    · rintro ⟨h1, -⟩; exact absurd hall h1
  · rw [if_neg hall]
    rw [all_range_decide] at hall
    rcases hpm : py_min (ratio_list T numVars j m) with _ | q
    · have hnil := py_min_eq_none.mp hpm
      constructor
      · intro _
        refine ⟨hall, fun i hi => ?_⟩
        by_contra hc
        rw [Bool.not_eq_false] at hc
        have hmem : ratio_entry T numVars j i ∈ ratio_list T numVars j m :=
          mem_ratio_list.mpr ⟨hi, rfl, hc⟩
        rw [hnil] at hmem
        cases hmem
      · intro _; rfl
    · constructor
      · intro h; simp at h
      · rintro ⟨-, h2⟩
        obtain ⟨hqmem, -, -⟩ := py_min_ratio_list_spec hpm
        obtain ⟨hq2, hqeq, hqnn⟩ := mem_ratio_list.mp hqmem
        have := h2 q.2 hq2
        rw [← hqeq] at this
        rw [this] at hqnn
        cases hqnn

lemma enum_foldl_not_mem (T : Tableau) (nv n : ℕ) (l : List ℕ) :
    ∀ (s : ℕ) (acc : ℕ → ℚ) {v : ℕ}, v ∉ l →
    ((List.enumFrom s l).foldl
      (fun acc p => if p.2 < n then Function.update acc p.2 (T (p.1 + 1) nv) else acc) acc) v
      = acc v := by
  induction l with
  | nil => intro s acc v _; rfl
  | cons x xs ih =>
    intro s acc v hv
    rw [List.enumFrom_cons, List.foldl_cons]
    have hvx : v ≠ x := fun h => hv (h ▸ List.mem_cons_self x xs)
    have hvxs : v ∉ xs := fun h => hv (List.mem_cons_of_mem x h)
    rw [ih (s + 1) _ hvxs]
    by_cases hxn : x < n
    · simp only [if_pos hxn]
      exact Function.update_noteq hvx _ acc
    · simp only [if_neg hxn]

lemma enum_foldl_getElem (T : Tableau) (nv n : ℕ) (l : List ℕ) :
    ∀ (s : ℕ) (acc : ℕ → ℚ), l.Nodup → ∀ {i v : ℕ}, l[i]? = some v → v < n →
    ((List.enumFrom s l).foldl
      (fun acc p => if p.2 < n then Function.update acc p.2 (T (p.1 + 1) nv) else acc) acc) v
      = T (s + i + 1) nv := by
  induction l with
  | nil => intro s acc _ i v h _; simp at h
  | cons x xs ih =>
    intro s acc hnd i v h hv
    rw [List.enumFrom_cons, List.foldl_cons]
    cases i with
    | zero =>
      rw [List.getElem?_cons_zero] at h
      have hxv := Option.some.inj h
      subst hxv
      rw [enum_foldl_not_mem T nv n xs (s + 1) _ (List.nodup_cons.mp hnd).1]
      simp only [if_pos hv]
      rw [Function.update_same]
    | succ i =>
      simp only [List.getElem?_cons_succ] at h
      have harith : s + 1 + i + 1 = s + (i + 1) + 1 := by omega
      rw [← harith]
      exact ih (s + 1) _ (List.nodup_cons.mp hnd).2 h hv

lemma getD_map_range {f : ℕ → ℚ} {n v : ℕ} (h : v < n) :
    ((List.range n).map f).getD v 0 = f v := by
  rw [List.getD_eq_getElem?_getD, List.getElem?_map, List.getElem?_range h]
  rfl

/-- When the loop ends with an optimal result, the tableau it leaves on the
instance is one on which the entering rule found no candidate column. -/
lemma simplex_loop_optimal_entering {numVars m maxIter : ℕ} :
    ∀ (fuel iteration : ℕ) (T : Tableau) (basis : List ℕ) (sol : List ℚ) (obj : ℚ) (it : ℕ),
      (simplex_loop numVars m maxIter fuel iteration T basis).2.2 = some (.optimal sol obj it) →
      get_entering_variable ((simplex_loop numVars m maxIter fuel iteration T basis).1) numVars
        = none := by
  intro fuel
  induction fuel with
  | zero =>
    intro iteration T basis sol obj it h
    simp [simplex_loop] at h
  | succ fuel ih =>
    intro iteration T basis sol obj it h
    rcases he : get_entering_variable T numVars with _ | j
    · simp only [simplex_loop, he] at h ⊢
    · rcases hl : get_leaving_variable T numVars m j with _ | r
      · simp [simplex_loop, he, hl] at h
      · rcases r with _ | r
        · simp [simplex_loop, he, hl] at h
        · simp only [simplex_loop, he, hl] at h ⊢
          exact ih _ _ _ _ _ _ h

/-- The loop only ever reports the iteration_limit status with the
iteration count max_iterations. -/
lemma simplex_loop_limit_count {numVars m maxIter : ℕ} :
    ∀ (fuel iteration : ℕ) (T : Tableau) (basis : List ℕ) (k : ℕ),
      (simplex_loop numVars m maxIter fuel iteration T basis).2.2 = some (.iterationLimit k) →
      k = maxIter := by
  intro fuel
  induction fuel with
  | zero =>
    intro iteration T basis k h
    simp only [simplex_loop, Option.some.injEq, SolveResult.iterationLimit.injEq] at h
    exact h.symm
  | succ fuel ih =>
    intro iteration T basis k h
    rcases he : get_entering_variable T numVars with _ | j
    · simp [simplex_loop, he] at h
    · rcases hl : get_leaving_variable T numVars m j with _ | r
      · simp [simplex_loop, he, hl] at h
      · rcases r with _ | r
        · simp [simplex_loop, he, hl] at h
        · simp only [simplex_loop, he, hl] at h
          exact ih _ _ _ _ h

end LPSolver

section MapMHelpers

variable {α β : Type}

lemma mapM_except_error_iff (f : α → Except String β) (l : List α) :
    (∃ e, l.mapM f = .error e) ↔ ∃ x ∈ l, ∃ e, f x = .error e := by
  induction l with
  | nil =>
    constructor
    · rintro ⟨e, he⟩; cases he
    · rintro ⟨x, hx, -⟩; cases hx
  | cons a l ih =>
    rcases hfa : f a with e | b
    · have hc : (a :: l).mapM f = .error e := by rw [List.mapM_cons, hfa]; rfl
      constructor
      · intro _; exact ⟨a, List.mem_cons_self a l, e, hfa⟩
      · intro _; exact ⟨e, hc⟩
    · rcases hml : l.mapM f with e | bs
      · have hc : (a :: l).mapM f = .error e := by rw [List.mapM_cons, hfa, hml]; rfl
        constructor
        · intro _
          obtain ⟨x, hx, he⟩ := ih.mp ⟨e, hml⟩
          exact ⟨x, List.mem_cons_of_mem a hx, he⟩
        · intro _; exact ⟨e, hc⟩
      · have hc : (a :: l).mapM f = .ok (b :: bs) := by rw [List.mapM_cons, hfa, hml]; rfl
        constructor
        · rintro ⟨e, he⟩
          rw [hc] at he
          cases he
        · rintro ⟨x, hx, e, he⟩
          rcases List.mem_cons.mp hx with rfl | hx
          · rw [hfa] at he; cases he
          · obtain ⟨e', he'⟩ := ih.mpr ⟨x, hx, e, he⟩
            rw [hml] at he'
            cases he'

lemma mapM_except_ok_getElem (f : α → Except String β) :
    ∀ (l : List α) (ys : List β), l.mapM f = .ok ys →
      ∀ (i : ℕ) (x : α), l[i]? = some x → ∃ y, ys[i]? = some y ∧ f x = .ok y := by
  intro l
  induction l with
  | nil => intro ys _ i x hx; simp at hx
  | cons a l ih =>
    intro ys h i x hx
    rcases hfa : f a with e | b
    · have hc : (a :: l).mapM f = .error e := by rw [List.mapM_cons, hfa]; rfl
      rw [hc] at h; cases h
    · rcases hml : l.mapM f with e | bs
      · have hc : (a :: l).mapM f = .error e := by rw [List.mapM_cons, hfa, hml]; rfl
        rw [hc] at h; cases h
      · have hc : (a :: l).mapM f = .ok (b :: bs) := by rw [List.mapM_cons, hfa, hml]; rfl
        rw [hc] at h
        obtain rfl := Except.ok.inj h
        cases i with
        | zero =>
          rw [List.getElem?_cons_zero] at hx
          obtain rfl := Option.some.inj hx
          exact ⟨b, List.getElem?_cons_zero, hfa⟩
        | succ i =>
          rw [List.getElem?_cons_succ] at hx
          obtain ⟨y, hy, hfy⟩ := ih bs hml i x hx
          exact ⟨y, by simpa using hy, hfy⟩

end MapMHelpers

namespace LPModel

lemma constraint_row_error_iff (con : LPConstraint) :
    (∃ e, constraint_row con = .error e) ↔
      con.sense ≠ "<=" ∧ con.sense ≠ ">=" ∧ con.sense ≠ "=" := by
  unfold constraint_row
  split_ifs with h1 h2 h3
  · simp [h1]
  · simp [h2]
  · simp [h3]
  · simp [h1, h2, h3]

end LPModel

namespace LPSolver

/-- When the loop ends optimal, the reported solution and objective value
are exactly extract_solution applied to the tableau and basis the loop
leaves behind. -/
lemma simplex_loop_optimal_extract {numVars m maxIter : ℕ} :
    ∀ (fuel iteration : ℕ) (T : Tableau) (basis : List ℕ) (sol : List ℚ) (obj : ℚ) (it : ℕ),
      (simplex_loop numVars m maxIter fuel iteration T basis).2.2 = some (.optimal sol obj it) →
      sol = (extract_solution (simplex_loop numVars m maxIter fuel iteration T basis).1
              (simplex_loop numVars m maxIter fuel iteration T basis).2.1 numVars m).1 ∧
      obj = (extract_solution (simplex_loop numVars m maxIter fuel iteration T basis).1
              (simplex_loop numVars m maxIter fuel iteration T basis).2.1 numVars m).2 := by
  intro fuel
  induction fuel with
  | zero =>
    intro iteration T basis sol obj it h
    simp [simplex_loop] at h
  | succ fuel ih =>
    intro iteration T basis sol obj it h
    rcases he : get_entering_variable T numVars with _ | j
    · simp only [simplex_loop, he] at h ⊢
      simp only [Option.some.injEq, SolveResult.optimal.injEq] at h
      exact ⟨h.1.symm, h.2.1.symm⟩
    · rcases hl : get_leaving_variable T numVars m j with _ | r
      · simp [simplex_loop, he, hl] at h
      · rcases r with _ | r
        · simp [simplex_loop, he, hl] at h
        · simp only [simplex_loop, he, hl] at h ⊢
          exact ih _ _ _ _ _ _ h

end LPSolver

/-- C1: on maximize x s.t. x <= 5 (c = [1], A = [[1]], b = [5], default
maxIterations = 1000) solve returns status optimal with solution [5] and
iteration count 1 as the claim states, but with objective value -5 rather
than the claimed 5: extract_solution negates T[0, RHS], which at this
optimum already holds +5, the true maximal objective. This theorem
evaluates the embedded solve at the claim's input. -/
theorem C1_scenario2_eval :
    LPSolver.solve_result [1] [[1]] [5] 1000 =
      some (.optimal [5] (-5) 1) := by decide

/-- C2 counterexample: on the tableau [[0, 0], [1, -1], [1, 5]] (RHS is
column 1) with entering column 0, both constraint rows are candidates in
the claim's sense (entry 1 > eps), and row 0 has the strictly smaller
ratio (-1 < 5), yet get_leaving_variable returns row 1: the generator
filter r[0] >= 0 silently drops the candidate with negative ratio, so the
function does not minimise T[i, RHS]/T[i, j] over all rows with
T[i, j] > eps. -/
theorem C2_counterexample :
    LPSolver.get_leaving_variable T_neg 1 2 0 = some (some 1) ∧
      eps < T_neg 1 0 ∧ eps < T_neg 2 0 ∧
      T_neg 1 1 / T_neg 1 0 < T_neg 2 1 / T_neg 2 0 := by decide

/-- C2 amended: get_leaving_variable returns None exactly when no
constraint row has entering-column entry above eps. Otherwise it pairs
row i with key T[i, RHS]/T[i, j] when T[i, j] > eps and with +infinity
(`none`) when T[i, j] <= eps, keeps only pairs with nonnegative key, and
returns the row of the first pair attaining the minimal key — minimal
among all surviving rows, and strictly below every earlier surviving row,
so ties go to the smallest row index; when every pair is discarded (all
rows have T[i, j] > eps with negative ratio) it raises ValueError instead
of returning. -/
theorem C2_amended_leaving_rule (T : Tableau) (numVars m j r : ℕ) :
    (LPSolver.get_leaving_variable T numVars m j = some none ↔
      ∀ i < m, T (i + 1) j ≤ eps) ∧
    (LPSolver.get_leaving_variable T numVars m j = none ↔
      (¬ ∀ i < m, T (i + 1) j ≤ eps) ∧
        ∀ i < m, LPSolver.ratio_nonneg (LPSolver.ratio_entry T numVars j i).1 = false) ∧
    (LPSolver.get_leaving_variable T numVars m j = some (some r) →
      r < m ∧
        LPSolver.ratio_nonneg (LPSolver.ratio_entry T numVars j r).1 = true ∧
        (∀ i < m, LPSolver.ratio_nonneg (LPSolver.ratio_entry T numVars j i).1 = true →
          LPSolver.ratio_lt (LPSolver.ratio_entry T numVars j i).1
            (LPSolver.ratio_entry T numVars j r).1 = false) ∧
        (∀ i < r, LPSolver.ratio_nonneg (LPSolver.ratio_entry T numVars j i).1 = true →
          LPSolver.ratio_lt (LPSolver.ratio_entry T numVars j r).1
            (LPSolver.ratio_entry T numVars j i).1 = true)) :=
  ⟨LPSolver.get_leaving_variable_eq_some_none,
   LPSolver.get_leaving_variable_eq_none_iff,
   LPSolver.get_leaving_variable_eq_some_some⟩

theorem C2_amended_witness :
    1 < 2 ∧ LPSolver.ratio_nonneg (LPSolver.ratio_entry T_neg 1 0 1).1 = true := by
  have h := (C2_amended_leaving_rule T_neg 1 2 0 1).2.2 (by decide)
  exact ⟨h.1, h.2.1⟩

/-- C7: solve with maxIterations = 0 returns iteration_limit carrying
iteration count 0 on every input (the loop body never runs); whenever
solve reports iteration_limit the carried count equals maxIterations (the
code returns "iterations": max_iterations there, by the shape of the
iterationLimit constructor carrying nothing else, without solution or
objective value); and each of the three terminal result forms reports its
iteration count through SolveResult.iterations. -/
theorem C7_iteration_limit (c : List ℚ) (A : List (List ℚ)) (b : List ℚ)
    (N k : ℕ) (sol : List ℚ) (obj : ℚ) (i : ℕ) :
    (LPSolver.solve_result c A b 0 = some (.iterationLimit 0)) ∧
    (LPSolver.solve_result c A b N = some (.iterationLimit k) → k = N) ∧
    (LPSolver.SolveResult.optimal sol obj i).iterations = i ∧
    (LPSolver.SolveResult.unbounded i).iterations = i ∧
    (LPSolver.SolveResult.iterationLimit i).iterations = i := by
  refine ⟨rfl, fun h => ?_, rfl, rfl, rfl⟩
  exact LPSolver.simplex_loop_limit_count N 0 _ _ k h

theorem C7_witness :
    LPSolver.solve_result [1] [[1]] [5] 0 = some (.iterationLimit 0) ∧ (0 : ℕ) = 0 :=
  ⟨(C7_iteration_limit [1] [[1]] [5] 0 0 [] 0 0).1,
   (C7_iteration_limit [1] [[1]] [5] 0 0 [] 0 0).2.1 (by decide)⟩

/-- C9: solve is deterministic. Its returned result dictionary depends
only on (c, A, b, max_iterations): two instances in arbitrary states
return the same result, and calling solve a second time on the instance
mutated by a first call returns the same result as the first call —
identical status, iteration count, and (on the optimal path) identical
solution vector and objective value, since the results are equal as
values. -/
theorem C9_solve_deterministic (s₁ s₂ : LPSolver) (c : List ℚ)
    (A : List (List ℚ)) (b : List ℚ) (N : ℕ) :
    (LPSolver.solve s₁ c A b N).2 = (LPSolver.solve s₂ c A b N).2 ∧
    (LPSolver.solve ((LPSolver.solve s₁ c A b N).1) c A b N).2 =
      (LPSolver.solve s₁ c A b N).2 :=
  ⟨rfl, rfl⟩

/-- C3: the entering rule returns some j exactly when j is the smallest
non-RHS column with objective-row entry < -eps (the np.isclose guard is
redundant: any entry strictly below -eps fails it automatically), returns
None exactly when every such entry is >= -eps, and consequently whenever
solve returns status optimal, every objective-row entry of the tableau the
instance then holds (excluding the RHS column) is >= -eps. -/
theorem C3_entering_rule (T : Tableau) (numVars j jj : ℕ) (s : LPSolver)
    (c : List ℚ) (A : List (List ℚ)) (b : List ℚ) (N : ℕ)
    (sol : List ℚ) (obj : ℚ) (it : ℕ) :
    (LPSolver.get_entering_variable T numVars = some j ↔
      j < numVars ∧ T 0 j < -eps ∧ ∀ k < j, ¬ T 0 k < -eps) ∧
    (LPSolver.get_entering_variable T numVars = none ↔
      ∀ k < numVars, -eps ≤ T 0 k) ∧
    ((LPSolver.solve s c A b N).2 = some (.optimal sol obj it) →
      jj < (LPSolver.solve s c A b N).1.num_variables →
      -eps ≤ (LPSolver.solve s c A b N).1.tableau 0 jj) := by
  refine ⟨LPSolver.get_entering_variable_eq_some,
    LPSolver.get_entering_variable_eq_none, fun hopt hjj => ?_⟩
  have key := LPSolver.simplex_loop_optimal_entering N 0 _ _ sol obj it hopt
  rw [LPSolver.get_entering_variable_eq_none] at key
  exact key jj hjj

theorem C3_witness :
    -eps ≤ (LPSolver.solve LPSolver.init [1] [[1]] [5] 1000).1.tableau 0 0 := by
  exact (C3_entering_rule (fun _ _ => 0) 0 0 0 LPSolver.init [1] [[1]] [5] 1000
    [5] (-5) 1).2.2 (by decide) (by decide)

/-- C10: whenever every constraint-row RHS entry is nonnegative and
get_leaving_variable returns a row r, that row's entry in the entering
column is strictly greater than eps, hence nonzero, so the division by the
pivot element in pivot is never a division by zero under this
precondition. -/
theorem C10_leaving_row_positive_pivot (T : Tableau) (numVars m j r : ℕ)
    (hb : ∀ i < m, 0 ≤ T (i + 1) numVars)
    (h : LPSolver.get_leaving_variable T numVars m j = some (some r)) :
    eps < T (r + 1) j ∧ T (r + 1) j ≠ 0 := by
  have heps : (0 : ℚ) < eps := by norm_num [eps]
  obtain ⟨hrm, hnn, hmin, -⟩ := LPSolver.get_leaving_variable_eq_some_some h
  have hex : ¬ ∀ i < m, T (i + 1) j ≤ eps := by
    intro hall
    have hcontra := (@LPSolver.get_leaving_variable_eq_some_none T numVars m j).mpr hall
    rw [h] at hcontra
    simp at hcontra
  push_neg at hex
  obtain ⟨i0, hi0, hcol0⟩ := hex
  by_cases hcr : eps < T (r + 1) j
  · exact ⟨hcr, ne_of_gt (lt_trans heps hcr)⟩
  · exfalso
    have hkeyr : (LPSolver.ratio_entry T numVars j r).1 = none := by
      simp [LPSolver.ratio_entry, if_neg hcr]
    have hpos0 : eps < T (i0 + 1) j := hcol0
    have hkey0 : (LPSolver.ratio_entry T numVars j i0).1 =
        some (T (i0 + 1) numVars / T (i0 + 1) j) := by
      simp [LPSolver.ratio_entry, if_pos hpos0]
    have hnn0 : LPSolver.ratio_nonneg (LPSolver.ratio_entry T numVars j i0).1 = true := by
      rw [hkey0]
      simp only [LPSolver.ratio_nonneg, decide_eq_true_eq]
      exact div_nonneg (hb i0 hi0) (le_of_lt (lt_trans heps hpos0))
    have hfalse := hmin i0 hi0 hnn0
    rw [hkey0, hkeyr] at hfalse
    simp [LPSolver.ratio_lt] at hfalse

theorem C10_witness : eps < T_w 1 0 ∧ T_w 1 0 ≠ 0 :=
  C10_leaving_row_positive_pivot T_w 2 1 0 0 (by decide) (by decide)

/-- C6 counterexample: on maximize x s.t. x <= -1 and -x <= 3 (an input
with a negative RHS entry, which solve accepts), the first pivot the loop
performs — entering column 0, leaving row 1, exactly the pair solve
selects, as the second and third conjuncts certify — strictly decreases
the objective c.x of the basic solution from 0 to -3; the first conjunct
certifies that solve really performs this iteration (it terminates as
optimal only after 2 iterations). So the true objective value is not
non-decreasing over the iterations solve performs. -/
theorem C6_counterexample :
    LPSolver.solve_result c_c6 A_c6 b_c6 1000 = some (.optimal [-1] 1 2) ∧
    LPSolver.get_entering_variable T0_c6 3 = some 0 ∧
    LPSolver.get_leaving_variable T0_c6 3 2 0 = some (some 1) ∧
    LPSolver.basic_objective (LPSolver.standard_form c_c6 A_c6 b_c6).1
        (LPSolver.pivot T0_c6 0 1) ((LPSolver.initialize_basis 3 2).set 1 0) 3 <
      LPSolver.basic_objective (LPSolver.standard_form c_c6 A_c6 b_c6).1 T0_c6
        (LPSolver.initialize_basis 3 2) 3 := by decide

/-- C6 amended: across one loop iteration whose selected leaving row has
entering-column entry strictly above eps (by C10 this covers every
iteration on a tableau whose constraint RHS entries are all nonnegative),
the objective cell T[0, RHS] — the value of the objective of the current
basic solution under the simplex tableau invariants — does not decrease
under the pivot. Without that qualification the pivot can decrease the
objective, as the concrete run in the counterexample shows. -/
theorem C6_amended_objective_monotone (T : Tableau) (numVars m j r : ℕ)
    (he : LPSolver.get_entering_variable T numVars = some j)
    (hl : LPSolver.get_leaving_variable T numVars m j = some (some r))
    (hcol : eps < T (r + 1) j) :
    T 0 numVars ≤ LPSolver.pivot T j r 0 numVars := by
  have heps : (0 : ℚ) < eps := by norm_num [eps]
  have hobj : T 0 j < -eps := (LPSolver.get_entering_variable_eq_some.mp he).2.1
  obtain ⟨-, hnn, -, -⟩ := LPSolver.get_leaving_variable_eq_some_some hl
  have hkey : (LPSolver.ratio_entry T numVars j r).1 =
      some (T (r + 1) numVars / T (r + 1) j) := by
    simp [LPSolver.ratio_entry, if_pos hcol]
  rw [hkey] at hnn
  have hratio : 0 ≤ T (r + 1) numVars / T (r + 1) j := by
    simpa [LPSolver.ratio_nonneg] using hnn
  simp only [LPSolver.pivot]
  rw [if_neg (by omega : ¬ (0 : ℕ) = r + 1)]
  nlinarith [mul_nonneg (neg_nonneg.mpr (le_of_lt (lt_trans hobj (by linarith))))
    hratio]

theorem C6_amended_witness : T_w 0 2 ≤ LPSolver.pivot T_w 0 0 0 2 :=
  C6_amended_objective_monotone T_w 2 1 0 0 (by decide) (by decide) (by decide)

/-- C4: in exact arithmetic a completed pivot (one whose pivot element
T[r+1, j] is nonzero, so the normalisation really makes the pivot entry 1)
preserves the basis invariant: if before the pivot every basis position i'
has its variable's column equal to the i'-th standard basis vector on rows
1..m, then after the pivot on entering column j and leaving row r — which
also sets basis[r] = j — the same holds of the updated basis; stated
entrywise for basis position i and row k+1. -/
theorem C4_pivot_preserves_basis_invariant (T : Tableau) (basis : List ℕ)
    (m j r i k : ℕ) (hr : r < m) (hlen : basis.length = m) (hi : i < m) (hk : k < m)
    (hp : T (r + 1) j ≠ 0)
    (hinv : ∀ i' < m, ∀ k' < m,
      T (k' + 1) (basis.getD i' 0) = if k' = i' then 1 else 0) :
    LPSolver.pivot T j r (k + 1) ((basis.set r j).getD i 0) =
      if k = i then 1 else 0 := by
  have hset : (basis.set r j).getD i 0 = if i = r then j else basis.getD i 0 := by
    by_cases hir : i = r
    · rw [if_pos hir, hir, List.getD_eq_getElem?_getD,
        List.getElem?_set_self (by rw [hlen]; exact hr), Option.getD_some]
    · rw [if_neg hir, List.getD_eq_getElem?_getD,
        List.getElem?_set_ne (fun h => hir h.symm), ← List.getD_eq_getElem?_getD]
  rw [hset]
  by_cases hir : i = r
  · rw [if_pos hir]
    simp only [LPSolver.pivot]
    by_cases hki : k = r
    · rw [if_pos (by omega : k + 1 = r + 1), hki, div_self hp,
        if_pos (show r = i by omega)]
    · rw [if_neg (by omega : ¬ k + 1 = r + 1), div_self hp, mul_one, sub_self,
        if_neg (by omega : ¬ k = i)]
  · rw [if_neg hir]
    have hrv : T (r + 1) (basis.getD i 0) = 0 := by
      rw [hinv i hi r hr]
      exact if_neg (fun h => hir h.symm)
    simp only [LPSolver.pivot]
    by_cases hkr : k = r
    · rw [if_pos (by omega : k + 1 = r + 1), hkr, hrv, zero_div,
        if_neg (show ¬ r = i by omega)]
    · rw [if_neg (by omega : ¬ k + 1 = r + 1), hrv, zero_div, mul_zero, sub_zero,
        hinv i hi k hk]

theorem C4_witness :
    LPSolver.pivot T_w 0 0 1 (([1].set 0 0).getD 0 0) = if 0 = 0 then 1 else 0 :=
  C4_pivot_preserves_basis_invariant T_w [1] 1 0 0 0 0 (by decide) (by decide)
    (by decide) (by decide) (by decide) (by decide)

/-- C5: for a basis without repeated entries (as the simplex loop
maintains), the extracted solution is a vector over exactly the
n = num_variables - num_constraints structural variables, in which a
variable v carried by basis position i has value T[i+1, RHS], a structural
variable in no basis position has value 0, and the returned objective
value is -T[0, RHS]; moreover, when solve terminates with status optimal,
the solution and objective value it returns are exactly
extract_solution applied to the terminal tableau and basis held by the
instance. -/
theorem C5_extract_solution_spec (T : Tableau) (basis : List ℕ)
    (numVars numCons i v w : ℕ) (s : LPSolver) (c : List ℚ)
    (A : List (List ℚ)) (b : List ℚ) (N : ℕ) (sol : List ℚ) (obj : ℚ)
    (it : ℕ) (hnd : basis.Nodup) :
    ((LPSolver.extract_solution T basis numVars numCons).1.length =
      numVars - numCons) ∧
    (basis[i]? = some v → v < numVars - numCons →
      (LPSolver.extract_solution T basis numVars numCons).1.getD v 0 =
        T (i + 1) numVars) ∧
    (w < numVars - numCons → w ∉ basis →
      (LPSolver.extract_solution T basis numVars numCons).1.getD w 0 = 0) ∧
    ((LPSolver.extract_solution T basis numVars numCons).2 = -(T 0 numVars)) ∧
    ((LPSolver.solve s c A b N).2 = some (.optimal sol obj it) →
      sol = (LPSolver.extract_solution (LPSolver.solve s c A b N).1.tableau
              (LPSolver.solve s c A b N).1.basis
              (LPSolver.solve s c A b N).1.num_variables
              (LPSolver.solve s c A b N).1.num_constraints).1 ∧
      obj = (LPSolver.extract_solution (LPSolver.solve s c A b N).1.tableau
              (LPSolver.solve s c A b N).1.basis
              (LPSolver.solve s c A b N).1.num_variables
              (LPSolver.solve s c A b N).1.num_constraints).2) := by
  refine ⟨?_, ?_, ?_, rfl, ?_⟩
  · simp [LPSolver.extract_solution]
  · intro hbv hv
    simp only [LPSolver.extract_solution]
    rw [LPSolver.getD_map_range hv]
    have harith : 0 + i + 1 = i + 1 := by omega
    rw [← harith]
    exact LPSolver.enum_foldl_getElem T numVars (numVars - numCons) basis 0
      (fun _ => 0) hnd hbv hv
  · intro hw hwb
    simp only [LPSolver.extract_solution]
    rw [LPSolver.getD_map_range hw]
    exact LPSolver.enum_foldl_not_mem T numVars (numVars - numCons) basis 0
      (fun _ => 0) hwb
  · intro hopt
    exact LPSolver.simplex_loop_optimal_extract N 0 _ _ sol obj it hopt

theorem C5_witness :
    (LPSolver.extract_solution T_w [0] 2 1).1.getD 0 0 = T_w 1 2 ∧
      (LPSolver.extract_solution T_w [0] 2 1).2 = -(T_w 0 2) := by
  have h := C5_extract_solution_spec T_w [0] 2 1 0 0 0 LPSolver.init [] [] [] 0
    [] 0 0 (by decide)
  exact ⟨h.2.1 (by decide) (by decide), h.2.2.2.1⟩

/-- C8: the standard-form step fails (with the unsupported-sense
ValueError) exactly when some constraint's sense string is none of "<=",
">=", "="; and on success, a constraint with sense ">=" contributes the
negated coefficient row and the negated effective right-hand side
rhs - lhs.constant, while senses "=" and "<=" both contribute the row and
the effective right-hand side unchanged ("=" is treated exactly like
"<="). -/
theorem C8_to_standard_form_sense_handling (mdl : LPModel) (i v : ℕ)
    (con : LPConstraint) (cf : ℕ → ℚ) (Af : ℕ → ℕ → ℚ) (bf : ℕ → ℚ) :
    ((∃ e, LPModel.to_standard_form mdl = .error e) ↔
      ∃ con' ∈ mdl.constraints,
        con'.sense ≠ "<=" ∧ con'.sense ≠ ">=" ∧ con'.sense ≠ "=") ∧
    (LPModel.to_standard_form mdl = .ok (cf, Af, bf) →
      mdl.constraints[i]? = some con →
      ((con.sense = ">=" →
          Af i v = -(LPModel.row_of_terms con.lhs.terms v) ∧
          bf i = -(con.rhs - con.lhs.constant)) ∧
       (con.sense = "=" →
          Af i v = LPModel.row_of_terms con.lhs.terms v ∧
          bf i = con.rhs - con.lhs.constant) ∧
       (con.sense = "<=" →
          Af i v = LPModel.row_of_terms con.lhs.terms v ∧
          bf i = con.rhs - con.lhs.constant))) := by
  constructor
  · have h1 : (∃ e, LPModel.to_standard_form mdl = .error e) ↔
        (∃ e, mdl.constraints.mapM LPModel.constraint_row = .error e) := by
      rcases hmm : mdl.constraints.mapM LPModel.constraint_row with e | rows
      · have hval : LPModel.to_standard_form mdl = .error e := by
          unfold LPModel.to_standard_form
          rw [hmm]
        rw [hval]
        exact ⟨fun _ => ⟨e, rfl⟩, fun _ => ⟨e, rfl⟩⟩
      · have hval : ∀ e', LPModel.to_standard_form mdl ≠ .error e' := by
          unfold LPModel.to_standard_form
          rw [hmm]
          intro e' h
          simp at h
        constructor
        · rintro ⟨e', he'⟩
          exact absurd he' (hval e')
        · rintro ⟨e', he'⟩
          cases he'
    rw [h1, mapM_except_error_iff]
    constructor
    · rintro ⟨x, hx, e, he⟩
      exact ⟨x, hx, (LPModel.constraint_row_error_iff x).mp ⟨e, he⟩⟩
    · rintro ⟨x, hx, hs⟩
      obtain ⟨e, he⟩ := (LPModel.constraint_row_error_iff x).mpr hs
      exact ⟨x, hx, e, he⟩
  · intro hok hcon
    rcases hmm : mdl.constraints.mapM LPModel.constraint_row with e | rows
    · unfold LPModel.to_standard_form at hok
      rw [hmm] at hok
      cases hok
    · unfold LPModel.to_standard_form at hok
      rw [hmm] at hok
      have htr := Except.ok.inj hok
      have hAf : (fun i' => (rows.getD i' (fun _ => 0, 0)).1) = Af :=
        congrArg (fun t => t.2.1) htr
      have hbf : (fun i' => (rows.getD i' (fun _ => 0, 0)).2) = bf :=
        congrArg (fun t => t.2.2) htr
      obtain ⟨y, hy, hcy⟩ := mapM_except_ok_getElem LPModel.constraint_row
        mdl.constraints rows hmm i con hcon
      have hgetD : rows.getD i (fun _ => 0, 0) = y := by
        rw [List.getD_eq_getElem?_getD, hy, Option.getD_some]
      have hAfi : Af i v = y.1 v := by
        rw [← hAf]
        show (rows.getD i (fun _ => 0, 0)).1 v = y.1 v
        rw [hgetD]
      have hbfi : bf i = y.2 := by
        rw [← hbf]
        show (rows.getD i (fun _ => 0, 0)).2 = y.2
        rw [hgetD]
      refine ⟨fun hsense => ?_, fun hsense => ?_, fun hsense => ?_⟩
      · unfold LPModel.constraint_row at hcy
        rw [hsense] at hcy
        rw [if_neg (show ¬ ((">=" : String) = "<=") by decide),
          if_pos rfl] at hcy
        obtain rfl := (Except.ok.inj hcy).symm
        exact ⟨hAfi, hbfi⟩
      · unfold LPModel.constraint_row at hcy
        rw [hsense] at hcy
        rw [if_neg (show ¬ (("=" : String) = "<=") by decide),
          if_neg (show ¬ (("=" : String) = ">=") by decide),
          if_pos rfl] at hcy
        obtain rfl := (Except.ok.inj hcy).symm
        exact ⟨hAfi, hbfi⟩
      · unfold LPModel.constraint_row at hcy
        rw [hsense] at hcy
        rw [if_pos rfl] at hcy
        obtain rfl := (Except.ok.inj hcy).symm
        exact ⟨hAfi, hbfi⟩

theorem C8_witness :
    out_w.2.2 0 = -(3 - 0) ∧
      out_w.2.1 0 0 = -(LPModel.row_of_terms [(0, 2)] 0) := by
  have h := (C8_to_standard_form_sense_handling mdl_w 0 0
    { lhs := { terms := [(0, 2)], constant := 0 }, sense := ">=", rhs := 3 }
    out_w.1 out_w.2.1 out_w.2.2).2 rfl rfl
  exact ⟨(h.1 rfl).2, (h.1 rfl).1⟩
